import Mathlib

/-!
Verification of the Groxy caching and proxy-rotation core.

This development shallowly embeds `src/cache.py` (the `InMemoryCache` and
`RedisCache` classes plus the `cache_response` decorator) and
`src/proxy_manager.py` (the `ProxyManager` class).  Wall-clock instants
(`time.time()`, `datetime.now()`) are modelled as integers passed explicitly;
network effects (the Redis backend, proxy health probes, random choices) are
modelled as explicit state and oracle parameters.
-/

namespace Groxy

/-- Python values that flow through the cache: the JSON-canonical constructors
(`None`, `bool`, `int`, `str`, `list`, dicts with string keys) plus an opaque
non-JSON-serializable object (e.g. a `set` or a custom class instance),
carried with a descriptive tag. -/
inductive PyValue where
  | none
  | bool (b : Bool)
  | int (n : Int)
  | str (s : String)
  | list (xs : List PyValue)
  | dict (kvs : List (String × PyValue))
  | obj (tag : String)

/-- JSON documents: the wire format produced by `json.dumps` and consumed by
`json.loads`.  We model the wire at the level of the document tree; the
byte-level rendering performed by the standard library is a bijection on
these trees. -/
inductive Json where
  | null
  | bool (b : Bool)
  | num (n : Int)
  | str (s : String)
  | arr (ws : List Json)
  | obj (kvs : List (String × Json))

mutual
/-- Model of `json.dumps`: total on the JSON-canonical fragment of `PyValue`,
fails (in Python: raises `TypeError`) on a non-serializable object. -/
def dumps : PyValue → Option Json
  | PyValue.none => some Json.null
  | PyValue.bool b => some (Json.bool b)
  | PyValue.int n => some (Json.num n)
  | PyValue.str s => some (Json.str s)
  | PyValue.list xs =>
    match dumpsList xs with
    | some ws => some (Json.arr ws)
    | Option.none => Option.none
  | PyValue.dict kvs =>
    match dumpsDict kvs with
    | some ws => some (Json.obj ws)
    | Option.none => Option.none
  | PyValue.obj _ => Option.none

def dumpsList : List PyValue → Option (List Json)
  | [] => some []
  | x :: xs =>
    match dumps x, dumpsList xs with
    | some w, some ws => some (w :: ws)
    | _, _ => Option.none

def dumpsDict : List (String × PyValue) → Option (List (String × Json))
  | [] => some []
  | (k, v) :: kvs =>
    match dumps v, dumpsDict kvs with
    | some w, some ws => some ((k, w) :: ws)
    | _, _ => Option.none
end

mutual
/-- Model of `json.loads` on a well-formed wire document. -/
def loads : Json → PyValue
  | Json.null => PyValue.none
  | Json.bool b => PyValue.bool b
  | Json.num n => PyValue.int n
  | Json.str s => PyValue.str s
  | Json.arr ws => PyValue.list (loadsList ws)
  | Json.obj kvs => PyValue.dict (loadsDict kvs)

def loadsList : List Json → List PyValue
  | [] => []
  | w :: ws => loads w :: loadsList ws

def loadsDict : List (String × Json) → List (String × PyValue)
  | [] => []
  | (k, w) :: kvs => (k, loads w) :: loadsDict kvs
end

/-! Association lists with first-occurrence discipline model Python's
`OrderedDict` (insertion order preserved; assignment to an existing key
replaces its value in place; `del` removes the key). -/

/-- Lookup (`d[key]` / `key in d`): first matching entry. -/
def odGet {α : Type} : List (String × α) → String → Option α
  | [], _ => Option.none
  | (k', v) :: rest, k => if k' = k then some v else odGet rest k

/-- Assignment `d[key] = v`: replace in place if present, else append. -/
def odSet {α : Type} : List (String × α) → String → α → List (String × α)
  | [], k, v => [(k, v)]
  | (k', v') :: rest, k, v =>
    if k' = k then (k, v) :: rest else (k', v') :: odSet rest k v

/-- Deletion `del d[key]`: remove the (first) entry with this key. -/
def odDel {α : Type} : List (String × α) → String → List (String × α)
  | [], _ => []
  | (k', v') :: rest, k => if k' = k then rest else (k', v') :: odDel rest k

/-! ### InMemoryCache (`src/cache.py`, class `InMemoryCache`) -/

/-- State of an `InMemoryCache`: the `OrderedDict` mapping keys to
`(data, expires_at)` pairs, and the configured `max_size`. -/
structure InMemoryCache where
  cache : List (String × PyValue × Int)
  max_size : Nat

/-- `InMemoryCache(max_size)` starts empty. -/
def InMemoryCache.init (max_size : Nat) : InMemoryCache := ⟨[], max_size⟩

/-- `InMemoryCache.cache_data(key, data, ttl)` at instant `now`: if the store
is at (or above) capacity, pop the oldest-inserted entry first (`popitem` on
an empty dict raises `KeyError`, which the `except` clause turns into a
`False` return); then assign `cache[key] = (data, now + ttl)`. -/
def InMemoryCache.cache_data (c : InMemoryCache) (key : String) (data : PyValue)
    (ttl : Int) (now : Int) : Bool × InMemoryCache :=
  if c.cache.length ≥ c.max_size then
    match c.cache with
    | [] => (false, c)
    | _ :: rest => (true, { c with cache := odSet rest key (data, now + ttl) })
  else (true, { c with cache := odSet c.cache key (data, now + ttl) })

/-- `InMemoryCache.get_cached_data(key, default)` at instant `now`: default if
absent; if `now > expires_at`, delete the entry and return the default;
otherwise return the stored data. -/
def InMemoryCache.get_cached_data (c : InMemoryCache) (key : String)
    (dflt : PyValue) (now : Int) : PyValue × InMemoryCache :=
  match odGet c.cache key with
  | Option.none => (dflt, c)
  | some (data, expires_at) =>
    if now > expires_at then (dflt, { c with cache := odDel c.cache key })
    else (data, c)

/-- `InMemoryCache.delete_cached_data(key)`: delete if present, return `True`. -/
def InMemoryCache.delete_cached_data (c : InMemoryCache) (key : String) :
    Bool × InMemoryCache :=
  (true, { c with cache := odDel c.cache key })

/-- `InMemoryCache.clear_cache(pattern)`: ignores the pattern, clears all. -/
def InMemoryCache.clear_cache (c : InMemoryCache) : Bool × InMemoryCache :=
  (true, { c with cache := [] })

/-! ### RedisCache (`src/cache.py`, class `RedisCache`) -/

/-- Result of a Python call: a normal return value, or an uncaught exception
propagating to the caller (carrying the exception class name). -/
inductive PyResult (α : Type) where
  | ok (a : α)
  | exn (e : String)

/-- State of the Redis backend visible to `RedisCache`: keys mapped to the
serialized wire document together with the absolute expiry instant that
`SETEX` installed.  The backend enforces expiry itself: an entry is visible
only while `now < expiry`. -/
structure RedisCache where
  store : List (String × Json × Int)

/-- `RedisCache.cache_data(key, data, ttl)` at instant `now`:
`json.dumps(data)` raises `TypeError` on a non-serializable value — the
`except (redis.RedisError, json.JSONDecodeError)` clause does not catch it,
so it propagates; `SETEX` rejects a non-positive ttl with a `RedisError`,
which is caught and turned into `False`; otherwise the serialized document
is stored with expiry `now + ttl` and `True` is returned. -/
def RedisCache.cache_data (c : RedisCache) (key : String) (data : PyValue)
    (ttl : Int) (now : Int) : PyResult (Bool × RedisCache) :=
  match dumps data with
  | Option.none => PyResult.exn "TypeError"
  | some w =>
    if ttl ≤ 0 then PyResult.ok (false, c)
    else PyResult.ok (true, { store := odSet c.store key (w, now + ttl) })

/-- `RedisCache.get_cached_data(key, default)` at instant `now`: `GET`
returns the stored document while it is unexpired, else nil; a nil reply
gives the default, otherwise the document is deserialized. -/
def RedisCache.get_cached_data (c : RedisCache) (key : String)
    (dflt : PyValue) (now : Int) : PyValue :=
  match odGet c.store key with
  | Option.none => dflt
  | some (w, expires_at) => if now < expires_at then loads w else dflt

/-- `RedisCache.delete_cached_data(key)` at instant `now`: `DEL` removes the
key and replies with the number of keys it removed (0 for an absent or
already-expired key); the method returns `bool` of that count. -/
def RedisCache.delete_cached_data (c : RedisCache) (key : String) (now : Int) :
    Bool × RedisCache :=
  let present :=
    match odGet c.store key with
    | some (_, expires_at) => decide (now < expires_at)
    | Option.none => false
  (present, { store := odDel c.store key })

/-! ### cache_response (`src/cache.py`, decorator `cache_response`)

The wrapped endpoint's computation is modelled by the value it would return
(`funcResult`); the third component of the result records whether the
computation was actually invoked on this call. -/

/-- Python's `x is not None` test. -/
def PyValue.isNone : PyValue → Bool
  | PyValue.none => true
  | _ => false

/-- One call of the `cache_response(ttl)` wrapper around an endpoint, with the
in-memory default cache: look the derived key up with default `None`; a
non-`None` cached value is returned as is; otherwise the wrapped function is
invoked, its result cached, and returned.  Result: (returned value, cache
state after the call, whether the wrapped function was invoked). -/
def cache_response_call (c : InMemoryCache) (cache_key : String) (ttl : Int)
    (now : Int) (funcResult : PyValue) : PyValue × InMemoryCache × Bool :=
  let lookup := c.get_cached_data cache_key PyValue.none now
  if lookup.1.isNone = false then (lookup.1, lookup.2, false)
  else
    let stored := lookup.2.cache_data cache_key funcResult ttl now
    (funcResult, stored.2, true)

/-! ### ProxyManager (`src/proxy_manager.py`) -/

/-- Python `set.add`: membership-preserving insert. -/
def setAdd (l : List String) (x : String) : List String :=
  if x ∈ l then l else l ++ [x]

/-- Python `set.remove` on an element known to be a member. -/
def setRemove (l : List String) (x : String) : List String :=
  l.filter (fun y => y != x)

/-- `random.choice(l)` on a non-empty list, with the random draw modelled by
an oracle index `r`. -/
def randChoice (l : List String) (r : Nat) : String :=
  l.getD (r % l.length) ""

/-- The six fallback user-agent strings configured in `ProxyManager.__init__`. -/
def defaultUserAgents : List String :=
  ["Mozilla/5.0 (Windows NT 10.0; Win64; x64) AppleWebKit/537.36 (KHTML, like Gecko) Chrome/122.0.0.0 Safari/537.36",
   "Mozilla/5.0 (Macintosh; Intel Mac OS X 10_15_7) AppleWebKit/605.1.15 (KHTML, like Gecko) Version/17.0 Safari/605.1.15",
   "Mozilla/5.0 (Windows NT 10.0; Win64; x64; rv:123.0) Gecko/20100101 Firefox/123.0",
   "Mozilla/5.0 (X11; Linux x86_64) AppleWebKit/537.36 (KHTML, like Gecko) Chrome/122.0.0.0 Safari/537.36",
   "Mozilla/5.0 (iPhone; CPU iPhone OS 17_3_1 like Mac OS X) AppleWebKit/605.1.15 (KHTML, like Gecko) Version/17.0 Mobile/15E148 Safari/604.1",
   "Mozilla/5.0 (iPad; CPU OS 17_3_1 like Mac OS X) AppleWebKit/605.1.15 (KHTML, like Gecko) Version/17.0 Mobile/15E148 Safari/604.1"]

/-- State of a `ProxyManager`.  `healthy_proxies` and `unhealthy_proxies` are
Python sets (modelled at membership level by lists); `proxy_health_checks`
maps a proxy to the instant of its last health check (`datetime.now()`
modelled as an integer number of seconds). -/
structure ProxyManager where
  proxies : List String
  healthy_proxies : List String
  unhealthy_proxies : List String
  proxy_health_checks : List (String × Int)
  check_proxy_health : Bool
  use_fake_ua : Bool
  user_agents : List String

/-- `timedelta(minutes=30)` in seconds: the recheck interval for unhealthy
proxies. -/
def recheckInterval : Int := 1800

/-- One iteration of `_check_all_proxies`: probe the proxy; on success add it
to the healthy set and record the check time, otherwise add it to the
unhealthy set (with no check time recorded). -/
def checkAllStep (probe : String → Bool) (now : Int) (m : ProxyManager)
    (p : String) : ProxyManager :=
  if probe p then
    { m with healthy_proxies := setAdd m.healthy_proxies p,
             proxy_health_checks := odSet m.proxy_health_checks p now }
  else { m with unhealthy_proxies := setAdd m.unhealthy_proxies p }

/-- `ProxyManager._check_all_proxies`: probe every configured proxy in order.
The probe outcome (a network effect) is an oracle parameter. -/
def ProxyManager.check_all_proxies (m : ProxyManager) (probe : String → Bool)
    (now : Int) : ProxyManager :=
  m.proxies.foldl (checkAllStep probe now) m

/-- `ProxyManager.__init__(proxies, user_agents, check_proxy_health)`: both
health sets start empty; the fallback user-agent list defaults to the six
built-in strings; if the proxy list is non-empty and health checking is
enabled, every proxy is probed immediately. -/
def ProxyManager.init (proxies : List String) (user_agents : Option (List String))
    (check_proxy_health : Bool) (use_fake_ua : Bool) (probe : String → Bool)
    (now : Int) : ProxyManager :=
  let base : ProxyManager :=
    { proxies := proxies
      healthy_proxies := []
      unhealthy_proxies := []
      proxy_health_checks := []
      check_proxy_health := check_proxy_health
      use_fake_ua := use_fake_ua
      user_agents := user_agents.getD defaultUserAgents }
  if proxies ≠ [] ∧ check_proxy_health then base.check_all_proxies probe now
  else base

/-- One iteration of the recheck loop in `get_random_proxy`: an unhealthy
proxy whose last check is absent or older than 30 minutes is re-probed (on
success it moves to the healthy set) and its check time is set to `now`;
otherwise nothing happens. -/
def recheckStep (probe : String → Bool) (now : Int) (m : ProxyManager)
    (p : String) : ProxyManager :=
  let due :=
    match odGet m.proxy_health_checks p with
    | Option.none => true
    | some last => decide (now - last > recheckInterval)
  if due then
    let m' :=
      if probe p then
        { m with unhealthy_proxies := setRemove m.unhealthy_proxies p,
                 healthy_proxies := setAdd m.healthy_proxies p }
      else m
    { m' with proxy_health_checks := odSet m'.proxy_health_checks p now }
  else m

/-- The `{"http": proxy, "https": proxy}` dictionary returned by
`get_random_proxy`. -/
structure ProxyDict where
  http : String
  https : String

/-- `ProxyManager.get_random_proxy()`: `None` on an empty pool; otherwise run
the recheck loop over a snapshot of the unhealthy set, then choose from the
healthy set if non-empty, else from the full pool (the trailing
`return None` in the source is unreachable on a non-empty pool). -/
def ProxyManager.get_random_proxy (m : ProxyManager) (probe : String → Bool)
    (now : Int) (r : Nat) : Option ProxyDict × ProxyManager :=
  if m.proxies = [] then (Option.none, m)
  else
    let m1 := m.unhealthy_proxies.foldl (recheckStep probe now) m
    if m1.healthy_proxies ≠ [] then
      let p := randChoice m1.healthy_proxies r
      (some ⟨p, p⟩, m1)
    else
      let p := randChoice m1.proxies r
      (some ⟨p, p⟩, m1)

/-- `ProxyManager.get_random_user_agent()`: `self.ua.random` when the
fake-useragent generator initialized (its output is the oracle `uaRandom`),
otherwise a random choice from the fallback list. -/
def ProxyManager.get_random_user_agent (m : ProxyManager) (uaRandom : String)
    (r : Nat) : String :=
  if m.use_fake_ua then uaRandom else randChoice m.user_agents r

/-- The fixed header set built by `get_request_metadata`, with the chosen
user-agent in first position. -/
def baseHeaders (userAgent : String) : List (String × String) :=
  [("User-Agent", userAgent),
   ("Accept", "text/html,application/xhtml+xml,application/xml;q=0.9,image/avif,image/webp,*/*;q=0.8"),
   ("Accept-Language", "en-US,en;q=0.5"),
   ("Accept-Encoding", "gzip, deflate, br"),
   ("DNT", "1"),
   ("Connection", "keep-alive"),
   ("Upgrade-Insecure-Requests", "1"),
   ("Sec-Fetch-Dest", "document"),
   ("Sec-Fetch-Mode", "navigate"),
   ("Sec-Fetch-Site", "none"),
   ("Sec-Fetch-User", "?1"),
   ("Pragma", "no-cache"),
   ("Cache-Control", "no-cache")]

/-- The `{"headers": ..., "proxies": ...}` bundle returned by
`get_request_metadata`. -/
structure RequestMetadata where
  headers : List (String × String)
  proxies : Option ProxyDict

/-- `ProxyManager.get_request_metadata()`: the fixed header set with a random
user-agent, plus whatever `get_random_proxy` returns. -/
def ProxyManager.get_request_metadata (m : ProxyManager) (probe : String → Bool)
    (now : Int) (uaRandom : String) (rUA rProxy : Nat) :
    RequestMetadata × ProxyManager :=
  let ua := m.get_random_user_agent uaRandom rUA
  let sel := m.get_random_proxy probe now rProxy
  (⟨baseHeaders ua, sel.1⟩, sel.2)

/-- A sequence of successive `get_random_proxy` calls on one manager, one
random draw per call, returning all results and the final state. -/
def callProxySeq (probe : String → Bool) (now : Int) :
    ProxyManager → List Nat → List (Option ProxyDict) × ProxyManager
  | m, [] => ([], m)
  | m, r :: rs =>
    let step := m.get_random_proxy probe now r
    let rest := callProxySeq probe now step.2 rs
    (step.1 :: rest.1, rest.2)

/-- Successive `cache_data` calls on an `InMemoryCache`, inserting each key of
`ks` with value `val k` and ttl `ttlf k` at instant `now`. -/
def insertAll (c : InMemoryCache) (ks : List String) (val : String → PyValue)
    (ttlf : String → Int) (now : Int) : InMemoryCache :=
  ks.foldl (fun c k => (c.cache_data k (val k) (ttlf k) now).2) c

/-- A proxy is in exactly one of the two health sets. -/
def ExactlyOne (m : ProxyManager) (p : String) : Prop :=
  (p ∈ m.healthy_proxies ∧ p ∉ m.unhealthy_proxies)
  ∨ (p ∉ m.healthy_proxies ∧ p ∈ m.unhealthy_proxies)

/-! ## Helper lemmas -/

mutual
/-- Round-trip: deserializing a successfully serialized value gives the value back. -/
theorem loads_dumps : ∀ (v : PyValue) (w : Json), dumps v = some w → loads w = v
  | PyValue.none, w, h => by
      simp only [dumps, Option.some.injEq] at h; subst h; rfl
  | PyValue.bool _, w, h => by
      simp only [dumps, Option.some.injEq] at h; subst h; rfl
  | PyValue.int _, w, h => by
      simp only [dumps, Option.some.injEq] at h; subst h; rfl
  | PyValue.str _, w, h => by
      simp only [dumps, Option.some.injEq] at h; subst h; rfl
  | PyValue.list xs, w, h => by
      simp only [dumps] at h
      cases hws : dumpsList xs with
      | none => rw [hws] at h; exact absurd h (by simp)
      | some ws =>
        rw [hws] at h
        simp only [Option.some.injEq] at h
        subst h
        simp only [loads, loadsList_dumpsList xs ws hws]
  | PyValue.dict kvs, w, h => by
      simp only [dumps] at h
      cases hws : dumpsDict kvs with
      | none => rw [hws] at h; exact absurd h (by simp)
      | some ws =>
        rw [hws] at h
        simp only [Option.some.injEq] at h
        subst h
        simp only [loads, loadsDict_dumpsDict kvs ws hws]

theorem loadsList_dumpsList : ∀ (xs : List PyValue) (ws : List Json),
    dumpsList xs = some ws → loadsList ws = xs
  | [], ws, h => by
      simp only [dumpsList, Option.some.injEq] at h; subst h; rfl
  | x :: xs, ws, h => by
      simp only [dumpsList] at h
      cases hw : dumps x with
      | none => rw [hw] at h; exact absurd h (by simp)
      | some w =>
        cases hws : dumpsList xs with
        | none => rw [hw, hws] at h; exact absurd h (by simp)
        | some ws' =>
          rw [hw, hws] at h
          simp only [Option.some.injEq] at h
          subst h
          simp only [loadsList, loads_dumps x w hw, loadsList_dumpsList xs ws' hws]

theorem loadsDict_dumpsDict : ∀ (kvs : List (String × PyValue)) (ws : List (String × Json)),
    dumpsDict kvs = some ws → loadsDict ws = kvs
  | [], ws, h => by
      simp only [dumpsDict, Option.some.injEq] at h; subst h; rfl
  | (k, v) :: kvs, ws, h => by
      simp only [dumpsDict] at h
      cases hw : dumps v with
      | none => rw [hw] at h; exact absurd h (by simp)
      | some w =>
        cases hws : dumpsDict kvs with
        | none => rw [hw, hws] at h; exact absurd h (by simp)
        | some ws' =>
          rw [hw, hws] at h
          simp only [Option.some.injEq] at h
          subst h
          simp only [loadsDict, loads_dumps v w hw, loadsDict_dumpsDict kvs ws' hws]
end

theorem odGet_odSet_self {α : Type} (l : List (String × α)) (k : String) (v : α) :
    odGet (odSet l k v) k = some v := by
  induction l with
  | nil => simp [odSet, odGet]
  | cons hd tl ih =>
    obtain ⟨k', v'⟩ := hd
    by_cases h : k' = k
    · simp [odSet, odGet, h]
    · simp [odSet, odGet, h, ih]

theorem odGet_eq_none_iff {α : Type} (l : List (String × α)) (k : String) :
    odGet l k = Option.none ↔ k ∉ l.map Prod.fst := by
  induction l with
  | nil => simp [odGet]
  | cons hd tl ih =>
    obtain ⟨k', v'⟩ := hd
    by_cases h : k' = k
    · simp [odGet, h]
    · simp [odGet, h, ih, Ne.symm h]

theorem odSet_of_not_mem {α : Type} (l : List (String × α)) (k : String) (v : α)
    (h : k ∉ l.map Prod.fst) : odSet l k v = l ++ [(k, v)] := by
  induction l with
  | nil => simp [odSet]
  | cons hd tl ih =>
    obtain ⟨k', v'⟩ := hd
    simp only [List.map_cons, List.mem_cons, not_or] at h
    simp [odSet, Ne.symm h.1, ih h.2]

theorem length_odSet_le {α : Type} (l : List (String × α)) (k : String) (v : α) :
    (odSet l k v).length ≤ l.length + 1 := by
  induction l with
  | nil => simp [odSet]
  | cons hd tl ih =>
    obtain ⟨k', v'⟩ := hd
    by_cases h : k' = k
    · simp [odSet, h]
    · simp only [odSet, if_neg h, List.length_cons]
      omega

theorem keys_odSet_mem {α : Type} (l : List (String × α)) (k : String) (v : α)
    (h : k ∈ l.map Prod.fst) : (odSet l k v).map Prod.fst = l.map Prod.fst := by
  induction l with
  | nil => simp at h
  | cons hd tl ih =>
    obtain ⟨k', v'⟩ := hd
    by_cases hk : k' = k
    · simp [odSet, hk]
    · simp only [List.map_cons, List.mem_cons] at h
      rcases h with h | h
      · exact absurd h.symm hk
      · simp [odSet, hk, ih h]

theorem length_odSet_mem {α : Type} (l : List (String × α)) (k : String) (v : α)
    (h : k ∈ l.map Prod.fst) : (odSet l k v).length = l.length := by
  have h0 := keys_odSet_mem l k v h
  have h1 : ((odSet l k v).map Prod.fst).length = (l.map Prod.fst).length := by rw [h0]
  simpa using h1

theorem nodup_keys_odSet {α : Type} (l : List (String × α)) (k : String) (v : α)
    (h : (l.map Prod.fst).Nodup) : ((odSet l k v).map Prod.fst).Nodup := by
  by_cases hk : k ∈ l.map Prod.fst
  · rw [keys_odSet_mem l k v hk]; exact h
  · rw [odSet_of_not_mem l k v hk]
    simp only [List.map_append, List.map_cons, List.map_nil]
    refine List.Nodup.append h (List.nodup_singleton k) ?_
    intro x hx hxk
    simp only [List.mem_singleton] at hxk
    exact hk (hxk ▸ hx)

theorem odGet_odDel_self {α : Type} (l : List (String × α)) (k : String)
    (h : (l.map Prod.fst).Nodup) : odGet (odDel l k) k = Option.none := by
  induction l with
  | nil => simp [odDel, odGet]
  | cons hd tl ih =>
    obtain ⟨k', v'⟩ := hd
    simp only [List.map_cons, List.nodup_cons] at h
    by_cases hk : k' = k
    · subst hk
      simp only [odDel, if_pos rfl]
      exact (odGet_eq_none_iff tl k').mpr h.1
    · simp [odDel, odGet, hk, ih h.2]

theorem mem_setAdd {l : List String} {x p : String} :
    p ∈ setAdd l x ↔ p ∈ l ∨ p = x := by
  unfold setAdd
  by_cases h : x ∈ l
  · simp only [if_pos h]
    constructor
    · exact Or.inl
    · rintro (hp | rfl)
      · exact hp
      · exact h
  · simp [if_neg h, or_comm]

theorem mem_setRemove {l : List String} {x p : String} :
    p ∈ setRemove l x ↔ p ∈ l ∧ p ≠ x := by
  simp [setRemove, List.mem_filter, bne_iff_ne]

theorem randChoice_mem {l : List String} (h : l ≠ []) (r : Nat) :
    randChoice l r ∈ l := by
  have hlen : 0 < l.length := List.length_pos.mpr h
  have hlt : r % l.length < l.length := Nat.mod_lt r hlen
  unfold randChoice
  rw [List.getD_eq_getElem l "" hlt]
  exact l.getElem_mem hlt

theorem cache_data_max_size (c : InMemoryCache) (key : String) (data : PyValue)
    (ttl now : Int) : ((c.cache_data key data ttl now).2).max_size = c.max_size := by
  unfold InMemoryCache.cache_data
  by_cases h : c.cache.length ≥ c.max_size
  · rw [if_pos h]
    cases c.cache with
    | nil => rfl
    | cons hd rest => rfl
  · rw [if_neg h]

theorem cache_data_snd_cases (c : InMemoryCache) (key : String) (data : PyValue)
    (ttl now : Int) :
    ((c.cache_data key data ttl now).2.cache = [] ∧ (c.cache_data key data ttl now).2 = c)
  ∨ odGet ((c.cache_data key data ttl now).2).cache key = some (data, now + ttl) := by
  unfold InMemoryCache.cache_data
  by_cases h : c.cache.length ≥ c.max_size
  · rw [if_pos h]
    cases hc : c.cache with
    | nil => left; exact ⟨hc, rfl⟩
    | cons hd rest => right; simp [odGet_odSet_self]
  · rw [if_neg h]
    right
    simp [odGet_odSet_self]

theorem cache_data_success (c : InMemoryCache) (key : String) (data : PyValue)
    (ttl now : Int) (hcap : 1 ≤ c.max_size) :
    odGet ((c.cache_data key data ttl now).2).cache key = some (data, now + ttl) := by
  rcases cache_data_snd_cases c key data ttl now with ⟨hnil, heq⟩ | h
  · exfalso
    have h0 := heq ▸ hnil
    unfold InMemoryCache.cache_data at hnil
    by_cases h : c.cache.length ≥ c.max_size
    · rw [h0] at h
      simp at h
      omega
    · rw [if_neg h] at hnil
      simp only at hnil
      have := odGet_odSet_self c.cache key (data, now + ttl)
      rw [hnil] at this
      simp [odGet] at this
  · exact h

theorem cache_data_nodup (c : InMemoryCache) (key : String) (data : PyValue)
    (ttl now : Int) (h : (c.cache.map Prod.fst).Nodup) :
    (((c.cache_data key data ttl now).2).cache.map Prod.fst).Nodup := by
  unfold InMemoryCache.cache_data
  by_cases hf : c.cache.length ≥ c.max_size
  · rw [if_pos hf]
    cases hc : c.cache with
    | nil => exact h
    | cons hd rest =>
      rw [hc] at h
      simp only [List.map_cons, List.nodup_cons] at h
      exact nodup_keys_odSet rest key (data, now + ttl) h.2
  · rw [if_neg hf]
    exact nodup_keys_odSet c.cache key (data, now + ttl) h

/-! ## Claims -/

/-- C1: for every key `k`, JSON-representable value `v` and `ttl > 0`, a
`cache_data(k, v, ttl)` followed by `get_cached_data(k)` strictly before
`ttl` seconds have elapsed returns a value that is value-equal to `v` after
round-trip serialization — for the in-process store (with a positive
capacity) and for the networked (Redis) store. -/
theorem c1_put_then_get_within_ttl_returns_value :
    (∀ (c : InMemoryCache) (key : String) (v : PyValue) (ttl now t : Int)
       (dflt : PyValue), 1 ≤ c.max_size → 0 < ttl → t < now + ttl →
       (((c.cache_data key v ttl now).2).get_cached_data key dflt t).1 = v)
  ∧ (∀ (rc : RedisCache) (key : String) (v : PyValue) (w : Json)
       (ttl now t : Int) (dflt : PyValue),
       dumps v = some w → 0 < ttl → t < now + ttl →
       ∃ rc', rc.cache_data key v ttl now = PyResult.ok (true, rc')
         ∧ rc'.get_cached_data key dflt t = v) := by
  constructor
  · intro c key v ttl now t dflt hcap httl ht
    have hget := cache_data_success c key v ttl now hcap
    unfold InMemoryCache.get_cached_data
    rw [hget]
    simp only
    rw [if_neg (by omega)]
  · intro rc key v w ttl now t dflt hd httl ht
    refine ⟨{ store := odSet rc.store key (w, now + ttl) }, ?_, ?_⟩
    · unfold RedisCache.cache_data
      rw [hd]
      simp only
      rw [if_neg (by omega)]
    · unfold RedisCache.get_cached_data
      simp only [odGet_odSet_self]
      rw [if_pos ht]
      exact loads_dumps v w hd

/-- Witness for C1 at a concrete input: capacity 2, key `"k"`, value `7`,
ttl 60, put at instant 0, get at instant 30. -/
theorem c1_put_then_get_within_ttl_returns_value_witness :
    ((((InMemoryCache.init 2).cache_data "k" (PyValue.int 7) 60 0).2).get_cached_data
        "k" PyValue.none 30).1 = PyValue.int 7
  ∧ ∃ rc', RedisCache.cache_data ⟨[]⟩ "k" (PyValue.int 7) 60 0 = PyResult.ok (true, rc')
      ∧ rc'.get_cached_data "k" PyValue.none 30 = PyValue.int 7 :=
  ⟨c1_put_then_get_within_ttl_returns_value.1 (InMemoryCache.init 2) "k" (PyValue.int 7)
      60 0 30 PyValue.none (by decide) (by decide) (by decide),
   c1_put_then_get_within_ttl_returns_value.2 ⟨[]⟩ "k" (PyValue.int 7) (Json.num 7)
      60 0 30 PyValue.none (by simp [dumps]) (by decide) (by decide)⟩

/-- C3 (code bug): `RedisCache.cache_data` on a value `json.dumps` cannot
serialize raises `TypeError` to its caller — the `except` clause catches only
`redis.RedisError` and `json.JSONDecodeError`, so the exception propagates
instead of a `False` return.  (The in-process variant catches everything and
returns `False`.) -/
theorem c3_redis_put_raises_on_unserializable_value :
    RedisCache.cache_data ⟨[]⟩ "k" (PyValue.obj "set()") 300 0 = PyResult.exn "TypeError" := by
  unfold RedisCache.cache_data
  simp [dumps]

/-- C4: a `get_cached_data(k)` performed more than `ttl` seconds after
`cache_data(k, v, ttl)` returns the caller-supplied default, the expired
entry is deleted by that read, and any subsequent get on `k` (at any instant,
with any default) still returns the default. -/
theorem c4_expired_get_returns_default_and_deletes (c : InMemoryCache)
    (key : String) (data : PyValue) (ttl now t t' : Int) (dflt dflt' : PyValue)
    (hwf : (c.cache.map Prod.fst).Nodup) (ht : now + ttl < t) :
    ((c.cache_data key data ttl now).2.get_cached_data key dflt t).1 = dflt
  ∧ odGet ((c.cache_data key data ttl now).2.get_cached_data key dflt t).2.cache key
      = Option.none
  ∧ (((c.cache_data key data ttl now).2.get_cached_data key dflt t).2.get_cached_data
        key dflt' t').1 = dflt' := by
  have hnd1 := cache_data_nodup c key data ttl now hwf
  rcases cache_data_snd_cases c key data ttl now with ⟨hnil, _⟩ | hget
  · have hnone : odGet ((c.cache_data key data ttl now).2).cache key = Option.none := by
      rw [hnil]; rfl
    unfold InMemoryCache.get_cached_data
    simp [hnone]
  · have hdel : odGet (odDel ((c.cache_data key data ttl now).2).cache key) key
        = Option.none := odGet_odDel_self _ key hnd1
    have hgt : t > now + ttl := by omega
    unfold InMemoryCache.get_cached_data
    rw [hget]
    simp [hgt, hdel]

/-- Witness for C4 at a concrete input: put `"k" ↦ 7` with ttl 60 at instant
0, read at instant 61. -/
theorem c4_expired_get_returns_default_and_deletes_witness :
    ((((InMemoryCache.init 2).cache_data "k" (PyValue.int 7) 60 0).2).get_cached_data
        "k" (PyValue.str "dflt") 61).1 = PyValue.str "dflt" :=
  (c4_expired_get_returns_default_and_deletes (InMemoryCache.init 2) "k"
      (PyValue.int 7) 60 0 61 0 (PyValue.str "dflt") PyValue.none
      (by decide) (by decide)).1

/-- C7 (counterexample): `RedisCache.delete_cached_data` on an absent key
returns `False` (Redis `DEL` replies 0 and `bool(0)` is `False`), refuting
the claim that delete returns success whether or not the key was present for
both variants. -/
theorem c7_counterexample_redis_delete_absent_key :
    (RedisCache.delete_cached_data ⟨[]⟩ "k" 0).1 = false := rfl

/-- C7 (amended): deletion is idempotent in effect on the store for both
variants, and the in-process variant always returns success; but the
networked variant returns success only when the key was present (and
unexpired), returning `False` on an absent key. -/
theorem c7_amended_delete_semantics :
    (∀ (c : InMemoryCache) (key : String),
       (c.delete_cached_data key).1 = true
       ∧ ((c.delete_cached_data key).2.delete_cached_data key).1 = true
       ∧ ((c.cache.map Prod.fst).Nodup →
            odGet ((c.delete_cached_data key).2).cache key = Option.none))
  ∧ (∀ (rc : RedisCache) (key : String) (now : Int),
       ((rc.delete_cached_data key now).1 = true
          ↔ ∃ w exp, odGet rc.store key = some (w, exp) ∧ now < exp)
       ∧ (rc.delete_cached_data key now).2.store = odDel rc.store key
       ∧ ((rc.store.map Prod.fst).Nodup →
            ((rc.delete_cached_data key now).2.delete_cached_data key now).1 = false)) := by
  constructor
  · intro c key
    refine ⟨rfl, rfl, fun hwf => ?_⟩
    exact odGet_odDel_self c.cache key hwf
  · intro rc key now
    refine ⟨?_, rfl, fun hwf => ?_⟩
    · unfold RedisCache.delete_cached_data
      cases hod : odGet rc.store key with
      | none => simp [hod]
      | some we =>
        obtain ⟨w, exp⟩ := we
        simp [hod]
        constructor
        · intro hlt
          exact ⟨w, exp, ⟨rfl, rfl⟩, hlt⟩
        · rintro ⟨w', exp', ⟨hw, he⟩, hlt⟩
          exact he ▸ hlt
    · have hnone : odGet (odDel rc.store key) key = Option.none :=
        odGet_odDel_self rc.store key hwf
      unfold RedisCache.delete_cached_data
      simp [hnone]

/-- Witness for C7's amended claim at concrete inputs: deleting the present
key `"a"` succeeds in both variants; a second networked delete of the
now-absent key returns `False`; the in-process entry is gone after delete. -/
theorem c7_amended_delete_semantics_witness :
    ((⟨[("a", PyValue.int 1, 10)], 2⟩ : InMemoryCache).delete_cached_data "a").1 = true
  ∧ odGet (((⟨[("a", PyValue.int 1, 10)], 2⟩ : InMemoryCache).delete_cached_data "a").2).cache
      "a" = Option.none
  ∧ ((⟨[("a", Json.num 1, 10)]⟩ : RedisCache).delete_cached_data "a" 0).1 = true
  ∧ ((((⟨[("a", Json.num 1, 10)]⟩ : RedisCache).delete_cached_data "a" 0).2).delete_cached_data
       "a" 0).1 = false :=
  ⟨(c7_amended_delete_semantics.1 ⟨[("a", PyValue.int 1, 10)], 2⟩ "a").1,
   (c7_amended_delete_semantics.1 ⟨[("a", PyValue.int 1, 10)], 2⟩ "a").2.2 (by simp),
   (c7_amended_delete_semantics.2 ⟨[("a", Json.num 1, 10)]⟩ "a" 0).1.mpr
     ⟨Json.num 1, 10, rfl, by decide⟩,
   (c7_amended_delete_semantics.2 ⟨[("a", Json.num 1, 10)]⟩ "a" 0).2.2 (by simp)⟩

theorem get_after_put_none (c : InMemoryCache) (key : String) (ttl now t : Int) :
    (((c.cache_data key PyValue.none ttl now).2).get_cached_data key PyValue.none t).1
      = PyValue.none := by
  rcases cache_data_snd_cases c key PyValue.none ttl now with ⟨hnil, _⟩ | hget
  · have hnone : odGet ((c.cache_data key PyValue.none ttl now).2).cache key
        = Option.none := by rw [hnil]; rfl
    unfold InMemoryCache.get_cached_data
    rw [hnone]
  · unfold InMemoryCache.get_cached_data
    rw [hget]
    by_cases h : t > now + ttl
    · simp [h]
    · simp [h]

/-- C10: the `cache_response` wrapper treats a cached `None` as a miss — a
non-`None` cached value is returned without invoking the wrapped computation,
while a computation returning `None` is invoked on this call and again on any
subsequent call (its `None` result is cached but never served). -/
theorem c10_cached_none_is_miss :
    (∀ (c : InMemoryCache) (key : String) (ttl now : Int) (v fres : PyValue),
       (c.get_cached_data key PyValue.none now).1 = v → v.isNone = false →
       cache_response_call c key ttl now fres
         = (v, (c.get_cached_data key PyValue.none now).2, false))
  ∧ (∀ (c : InMemoryCache) (key : String) (ttl now t ttl' : Int),
       (c.get_cached_data key PyValue.none now).1 = PyValue.none →
       (cache_response_call c key ttl now PyValue.none).2.2 = true
       ∧ (cache_response_call ((cache_response_call c key ttl now PyValue.none).2.1)
            key ttl' t PyValue.none).2.2 = true) := by
  constructor
  · intro c key ttl now v fres hv hnn
    unfold cache_response_call
    simp [hv, hnn]
  · intro c key ttl now t ttl' hmiss
    have hfirst : cache_response_call c key ttl now PyValue.none
        = (PyValue.none,
           ((c.get_cached_data key PyValue.none now).2.cache_data key PyValue.none ttl now).2,
           true) := by
      unfold cache_response_call
      simp [hmiss, PyValue.isNone]
    refine ⟨by rw [hfirst], ?_⟩
    rw [hfirst]
    have hm2 := get_after_put_none (c.get_cached_data key PyValue.none now).2 key ttl now t
    unfold cache_response_call
    simp [hm2, PyValue.isNone]

/-- Witness for C10 at concrete inputs: on an empty cache a `None`-returning
computation is invoked on the first and again on the second call; a cached
non-`None` value `3` is returned with no invocation. -/
theorem c10_cached_none_is_miss_witness :
    (cache_response_call (InMemoryCache.init 2) "k" 60 0 PyValue.none).2.2 = true
  ∧ (cache_response_call
       ((cache_response_call (InMemoryCache.init 2) "k" 60 0 PyValue.none).2.1)
       "k" 60 5 PyValue.none).2.2 = true
  ∧ cache_response_call ⟨[("k", PyValue.int 3, 100)], 2⟩ "k" 60 0 (PyValue.int 9)
      = (PyValue.int 3,
         ((⟨[("k", PyValue.int 3, 100)], 2⟩ : InMemoryCache).get_cached_data
            "k" PyValue.none 0).2, false) :=
  ⟨(c10_cached_none_is_miss.2 (InMemoryCache.init 2) "k" 60 0 5 60 rfl).1,
   (c10_cached_none_is_miss.2 (InMemoryCache.init 2) "k" 60 0 5 60 rfl).2,
   c10_cached_none_is_miss.1 ⟨[("k", PyValue.int 3, 100)], 2⟩ "k" 60 0
     (PyValue.int 3) (PyValue.int 9) rfl rfl⟩

theorem insertAll_max_size : ∀ (ks : List String) (c : InMemoryCache)
    (val : String → PyValue) (ttlf : String → Int) (now : Int),
    (insertAll c ks val ttlf now).max_size = c.max_size
  | [], _, _, _, _ => rfl
  | k :: ks, c, val, ttlf, now => by
    show (insertAll ((c.cache_data k (val k) (ttlf k) now).2) ks val ttlf now).max_size = _
    rw [insertAll_max_size ks _ val ttlf now, cache_data_max_size]

theorem insertAll_fresh : ∀ (ks : List String) (c : InMemoryCache)
    (val : String → PyValue) (ttlf : String → Int) (now : Int),
    ks.Nodup → (∀ k ∈ ks, k ∉ c.cache.map Prod.fst) →
    c.cache.length + ks.length ≤ c.max_size →
    (insertAll c ks val ttlf now).cache
      = c.cache ++ ks.map (fun k => (k, val k, now + ttlf k))
  | [], c, val, ttlf, now, _, _, _ => by simp [insertAll]
  | k :: ks, c, val, ttlf, now, hnd, hfresh, hlen => by
    have hlt : c.cache.length < c.max_size := by
      simp only [List.length_cons] at hlen
      omega
    have hstep : (c.cache_data k (val k) (ttlf k) now).2
        = { c with cache := c.cache ++ [(k, val k, now + ttlf k)] } := by
      unfold InMemoryCache.cache_data
      rw [if_neg (by omega)]
      rw [odSet_of_not_mem c.cache k _ (hfresh k (List.mem_cons_self k ks))]
    have hfresh' : ∀ k' ∈ ks,
        k' ∉ (c.cache ++ [(k, val k, now + ttlf k)]).map Prod.fst := by
      intro k' hk' hmem
      rw [List.map_append] at hmem
      rcases List.mem_append.mp hmem with h | h
      · exact hfresh k' (List.mem_cons_of_mem k hk') h
      · simp only [List.map_cons, List.map_nil, List.mem_singleton] at h
        exact (List.nodup_cons.mp hnd).1 (h ▸ hk')
    have hlen' : (c.cache ++ [(k, val k, now + ttlf k)]).length + ks.length ≤ c.max_size := by
      simp only [List.length_append, List.length_cons, List.length_nil]
      simp only [List.length_cons] at hlen
      omega
    show (insertAll ((c.cache_data k (val k) (ttlf k) now).2) ks val ttlf now).cache = _
    rw [hstep]
    rw [insertAll_fresh ks { c with cache := c.cache ++ [(k, val k, now + ttlf k)] }
        val ttlf now (List.nodup_cons.mp hnd).2 hfresh' hlen']
    simp

/-- C2: the in-process store's size never exceeds its configured capacity,
and inserting `N+1` distinct keys into an empty store of capacity `N ≥ 1`
leaves exactly `N` entries — the first-inserted key evicted and the `N`
most-recently-inserted keys retained in order (eviction by insertion order,
for arbitrary per-key TTLs). -/
theorem c2_capacity_invariant_and_eviction :
    (∀ (c : InMemoryCache) (key : String) (data : PyValue) (ttl now : Int),
       c.cache.length ≤ c.max_size →
       ((c.cache_data key data ttl now).2).cache.length ≤ c.max_size)
  ∧ (∀ (N : Nat) (ks : List String) (val : String → PyValue) (ttlf : String → Int)
       (now : Int), 1 ≤ N → ks.Nodup → ks.length = N + 1 →
       (insertAll (InMemoryCache.init N) ks val ttlf now).cache.length = N
       ∧ (insertAll (InMemoryCache.init N) ks val ttlf now).cache.map Prod.fst = ks.tail
       ∧ ∀ k0, ks.head? = some k0 →
           k0 ∉ (insertAll (InMemoryCache.init N) ks val ttlf now).cache.map Prod.fst) := by
  constructor
  · intro c key data ttl now hle
    unfold InMemoryCache.cache_data
    by_cases h : c.cache.length ≥ c.max_size
    · rw [if_pos h]
      cases hc : c.cache with
      | nil => exact hle
      | cons hd rest =>
        have h1 := length_odSet_le rest key (data, now + ttl)
        have h2 : c.cache.length = rest.length + 1 := by rw [hc]; rfl
        simp only
        omega
    · rw [if_neg h]
      have h1 := length_odSet_le c.cache key (data, now + ttl)
      simp only
      omega
  · intro N ks val ttlf now hN hnd hlen
    cases ks with
    | nil => simp at hlen
    | cons k0 kt =>
      have hktlen : kt.length = N := by simpa using hlen
      have hktne : kt ≠ [] := by
        intro h
        rw [h] at hktlen
        simp at hktlen
        omega
      have hdecomp : kt = kt.dropLast ++ [kt.getLast hktne] :=
        (List.dropLast_append_getLast hktne).symm
      set mid := kt.dropLast with hmiddef
      set lst := kt.getLast hktne with hlstdef
      have hmidlen : mid.length = N - 1 := by
        rw [hmiddef]
        simp [List.length_dropLast, hktlen]
      have hk0kt : k0 ∉ kt := (List.nodup_cons.mp hnd).1
      have hktnd : kt.Nodup := (List.nodup_cons.mp hnd).2
      have hparts := List.nodup_append.mp (hdecomp ▸ hktnd)
      have hmidnd : mid.Nodup := hparts.1
      have hlstmid : lst ∉ mid := by
        intro hmem
        exact hparts.2.2 hmem (List.mem_singleton.mpr rfl)
      have hk0mid : k0 ∉ mid := by
        intro hmem
        exact hk0kt (hdecomp ▸ List.mem_append_left [lst] hmem)
      have hfill := insertAll_fresh (k0 :: mid) (InMemoryCache.init N) val ttlf now
        (List.nodup_cons.mpr ⟨hk0mid, hmidnd⟩)
        (by intro k _ hmem; simp [InMemoryCache.init] at hmem)
        (by simp only [InMemoryCache.init, List.length_nil, List.length_cons]; omega)
      have hms : (insertAll (InMemoryCache.init N) (k0 :: mid) val ttlf now).max_size = N := by
        rw [insertAll_max_size]
        rfl
      have hlen2 : (insertAll (InMemoryCache.init N) (k0 :: mid) val ttlf now).cache.length
          = N := by
        rw [hfill]
        simp only [InMemoryCache.init, List.nil_append, List.length_map, List.length_cons]
        omega
      have hsplit : insertAll (InMemoryCache.init N) (k0 :: kt) val ttlf now
          = ((insertAll (InMemoryCache.init N) (k0 :: mid) val ttlf now).cache_data
              lst (val lst) (ttlf lst) now).2 := by
        conv => lhs; rw [show k0 :: kt = (k0 :: mid) ++ [lst] from by rw [hdecomp]; rfl]
        unfold insertAll
        rw [List.foldl_append]
        rfl
      have hfinal : (insertAll (InMemoryCache.init N) (k0 :: kt) val ttlf now).cache
          = kt.map (fun k => (k, val k, now + ttlf k)) := by
        rw [hsplit]
        unfold InMemoryCache.cache_data
        rw [if_pos (by rw [hlen2, hms])]
        rw [hfill]
        simp only [InMemoryCache.init, List.nil_append, List.map_cons]
        show odSet (mid.map fun k => (k, val k, now + ttlf k)) lst (val lst, now + ttlf lst)
          = _
        rw [odSet_of_not_mem]
        · conv => rhs; rw [hdecomp]
          simp
        · simp only [List.map_map]
          intro hmem
          apply hlstmid
          simpa using hmem
      have hcomp : List.map (Prod.fst ∘ fun k => (k, val k, now + ttlf k)) kt
          = List.map id kt := rfl
      refine ⟨?_, ?_, ?_⟩
      · rw [hfinal]
        simp [hktlen]
      · rw [hfinal, List.map_map, hcomp, List.map_id]
        rfl
      · intro kk hkk
        simp only [List.head?_cons, Option.some.injEq] at hkk
        subst hkk
        rw [hfinal, List.map_map, hcomp, List.map_id]
        exact hk0kt

/-- Witness for C2 at the spec's concrete scenario: capacity 2, inserting
keys `a`, `b`, `c` (values 1, 2, 3, ttl 60) leaves exactly the two entries
`b`, `c` with `a` evicted. -/
theorem c2_capacity_invariant_and_eviction_witness :
    (insertAll (InMemoryCache.init 2) ["a", "b", "c"]
        (fun k => if k = "a" then PyValue.int 1 else if k = "b" then PyValue.int 2
          else PyValue.int 3) (fun _ => 60) 0).cache.length = 2
  ∧ (insertAll (InMemoryCache.init 2) ["a", "b", "c"]
        (fun k => if k = "a" then PyValue.int 1 else if k = "b" then PyValue.int 2
          else PyValue.int 3) (fun _ => 60) 0).cache.map Prod.fst = ["b", "c"] := by
  have h := c2_capacity_invariant_and_eviction.2 2 ["a", "b", "c"]
    (fun k => if k = "a" then PyValue.int 1 else if k = "b" then PyValue.int 2
      else PyValue.int 3) (fun _ => 60) 0 (by decide) (by decide) (by decide)
  exact ⟨h.1, h.2.1⟩

/-- C9: when the in-process store is at full capacity, `cache_data` on an
already-present key still evicts the oldest-inserted entry before the
overwrite — removing a second, unrelated entry and leaving the store one
below capacity — unless the overwritten key is itself the oldest-inserted
one, in which case the store stays exactly at capacity. -/
theorem c9_overwrite_at_capacity_evicts_oldest (c : InMemoryCache) (key k0 : String)
    (e0 : PyValue × Int) (data : PyValue) (ttl now : Int)
    (hwf : (c.cache.map Prod.fst).Nodup)
    (hfull : c.cache.length = c.max_size)
    (hmem : key ∈ c.cache.map Prod.fst)
    (hhead : c.cache.head? = some (k0, e0)) :
    (key ≠ k0 →
       ((c.cache_data key data ttl now).2).cache.length + 1 = c.max_size
       ∧ k0 ∉ ((c.cache_data key data ttl now).2).cache.map Prod.fst
       ∧ odGet ((c.cache_data key data ttl now).2).cache key = some (data, now + ttl))
  ∧ (key = k0 →
       ((c.cache_data key data ttl now).2).cache.length = c.max_size
       ∧ odGet ((c.cache_data key data ttl now).2).cache key = some (data, now + ttl)) := by
  cases hc : c.cache with
  | nil => rw [hc] at hhead; simp at hhead
  | cons hd tl =>
    have hhd : hd = (k0, e0) := by
      rw [hc] at hhead
      simpa using hhead
    subst hhd
    have hlen : tl.length + 1 = c.max_size := by
      rw [← hfull, hc]
      rfl
    have hcd : (c.cache_data key data ttl now).2
        = { c with cache := odSet tl key (data, now + ttl) } := by
      unfold InMemoryCache.cache_data
      rw [if_pos (by rw [hfull])]
      rw [hc]
    rw [hc] at hwf hmem
    simp only [List.map_cons, List.nodup_cons] at hwf
    simp only [List.map_cons, List.mem_cons] at hmem
    constructor
    · intro hne
      have hkeytl : key ∈ tl.map Prod.fst := by
        rcases hmem with h | h
        · exact absurd h hne
        · exact h
      refine ⟨?_, ?_, ?_⟩
      · rw [hcd]
        simp only
        rw [length_odSet_mem tl key _ hkeytl]
        exact hlen
      · rw [hcd]
        simp only
        rw [keys_odSet_mem tl key _ hkeytl]
        exact hwf.1
      · rw [hcd]
        exact odGet_odSet_self tl key (data, now + ttl)
    · intro heq
      subst heq
      refine ⟨?_, ?_⟩
      · rw [hcd]
        simp only
        rw [odSet_of_not_mem tl key _ hwf.1]
        simp only [List.length_append, List.length_cons, List.length_nil]
        omega
      · rw [hcd]
        exact odGet_odSet_self tl key (data, now + ttl)

/-- Witness for C9 at a concrete input: capacity-2 store holding `a` (oldest)
then `b`; overwriting `b` evicts `a`, leaving one entry. -/
theorem c9_overwrite_at_capacity_evicts_oldest_witness :
    ((⟨[("a", PyValue.int 1, 100), ("b", PyValue.int 2, 100)], 2⟩ : InMemoryCache).cache_data
        "b" (PyValue.int 9) 60 0).2.cache.length + 1 = 2
  ∧ "a" ∉ ((⟨[("a", PyValue.int 1, 100), ("b", PyValue.int 2, 100)], 2⟩ :
        InMemoryCache).cache_data "b" (PyValue.int 9) 60 0).2.cache.map Prod.fst :=
  ⟨((c9_overwrite_at_capacity_evicts_oldest
      ⟨[("a", PyValue.int 1, 100), ("b", PyValue.int 2, 100)], 2⟩ "b" "a"
      (PyValue.int 1, 100) (PyValue.int 9) 60 0 (by simp) rfl (by simp) rfl).1
      (by decide)).1,
   ((c9_overwrite_at_capacity_evicts_oldest
      ⟨[("a", PyValue.int 1, 100), ("b", PyValue.int 2, 100)], 2⟩ "b" "a"
      (PyValue.int 1, 100) (PyValue.int 9) 60 0 (by simp) rfl (by simp) rfl).1
      (by decide)).2.1⟩

theorem foldl_eq_self {α β : Type} (f : α → β → α) (s : α) (l : List β)
    (h : ∀ b ∈ l, f s b = s) : l.foldl f s = s := by
  induction l with
  | nil => rfl
  | cons hd tl ih =>
    rw [List.foldl_cons, h hd (List.mem_cons_self hd tl)]
    exact ih fun b hb => h b (List.mem_cons_of_mem hd hb)

theorem recheckStep_not_due (probe : String → Bool) (now : Int) (m : ProxyManager)
    (p : String) (last : Int) (h1 : odGet m.proxy_health_checks p = some last)
    (h2 : now - last ≤ recheckInterval) : recheckStep probe now m p = m := by
  unfold recheckStep
  simp [h1, show ¬(now - last > recheckInterval) from by omega]

theorem recheckStep_sets (probe : String → Bool) (now : Int) (m : ProxyManager)
    (q : String) :
    ((recheckStep probe now m q).healthy_proxies = m.healthy_proxies
       ∧ (recheckStep probe now m q).unhealthy_proxies = m.unhealthy_proxies)
  ∨ ((recheckStep probe now m q).healthy_proxies = setAdd m.healthy_proxies q
       ∧ (recheckStep probe now m q).unhealthy_proxies = setRemove m.unhealthy_proxies q) := by
  unfold recheckStep
  cases hod : odGet m.proxy_health_checks q with
  | none =>
    by_cases hp : probe q
    · right; simp [hod, hp]
    · left; simp [hod, hp]
  | some last =>
    by_cases hdue : now - last > recheckInterval
    · by_cases hp : probe q
      · right; simp [hod, hdue, hp]
      · left; simp [hod, hdue, hp]
    · left; simp [hod, hdue]

theorem recheckStep_proxies (probe : String → Bool) (now : Int) (m : ProxyManager)
    (q : String) : (recheckStep probe now m q).proxies = m.proxies := by
  unfold recheckStep
  cases hod : odGet m.proxy_health_checks q with
  | none => by_cases hp : probe q <;> simp [hod, hp]
  | some last =>
    by_cases hdue : now - last > recheckInterval <;> by_cases hp : probe q <;>
      simp [hod, hdue, hp]

theorem foldl_recheck_proxies (probe : String → Bool) (now : Int) :
    ∀ (l : List String) (m : ProxyManager),
    (l.foldl (recheckStep probe now) m).proxies = m.proxies
  | [], _ => rfl
  | q :: l, m => by
    rw [List.foldl_cons, foldl_recheck_proxies probe now l (recheckStep probe now m q),
      recheckStep_proxies]

theorem foldl_recheck_healthy_origin (probe : String → Bool) (now : Int) :
    ∀ (l : List String) (m : ProxyManager) (p : String),
    p ∈ (l.foldl (recheckStep probe now) m).healthy_proxies →
    p ∈ m.healthy_proxies ∨ p ∈ l
  | [], _, _, h => Or.inl h
  | q :: l, m, p, h => by
    rw [List.foldl_cons] at h
    rcases foldl_recheck_healthy_origin probe now l (recheckStep probe now m q) p h with
      h2 | h2
    · rcases recheckStep_sets probe now m q with ⟨he, _⟩ | ⟨he, _⟩
      · rw [he] at h2
        exact Or.inl h2
      · rw [he] at h2
        rcases mem_setAdd.mp h2 with h3 | h3
        · exact Or.inl h3
        · exact Or.inr (by simp [h3])
    · exact Or.inr (by simp [h2])

theorem recheckStep_exactlyOne (probe : String → Bool) (now : Int) (m : ProxyManager)
    (q p : String) (h : ExactlyOne m p) : ExactlyOne (recheckStep probe now m q) p := by
  rcases recheckStep_sets probe now m q with ⟨he, hu⟩ | ⟨he, hu⟩
  · unfold ExactlyOne
    rw [he, hu]
    exact h
  · unfold ExactlyOne
    rw [he, hu]
    by_cases hpq : p = q
    · subst hpq
      rcases h with ⟨h1, _⟩ | ⟨_, _⟩
      · exact Or.inl ⟨mem_setAdd.mpr (Or.inl h1), fun hc => (mem_setRemove.mp hc).2 rfl⟩
      · exact Or.inl ⟨mem_setAdd.mpr (Or.inr rfl), fun hc => (mem_setRemove.mp hc).2 rfl⟩
    · rcases h with ⟨h1, h2⟩ | ⟨h1, h2⟩
      · exact Or.inl ⟨mem_setAdd.mpr (Or.inl h1), fun hc => h2 (mem_setRemove.mp hc).1⟩
      · refine Or.inr ⟨fun hc => ?_, mem_setRemove.mpr ⟨h2, hpq⟩⟩
        rcases mem_setAdd.mp hc with h' | h'
        · exact h1 h'
        · exact hpq h'

theorem foldl_recheck_exactlyOne (probe : String → Bool) (now : Int) :
    ∀ (l : List String) (m : ProxyManager) (p : String),
    ExactlyOne m p → ExactlyOne (l.foldl (recheckStep probe now) m) p
  | [], _, _, h => h
  | q :: l, m, p, h => by
    rw [List.foldl_cons]
    exact foldl_recheck_exactlyOne probe now l (recheckStep probe now m q) p
      (recheckStep_exactlyOne probe now m q p h)

theorem get_random_proxy_all_recent (m : ProxyManager) (probe : String → Bool)
    (now : Int) (r : Nat) (hne : m.proxies ≠ []) (hh : m.healthy_proxies ≠ [])
    (hrecent : ∀ p ∈ m.unhealthy_proxies, ∃ last,
       odGet m.proxy_health_checks p = some last ∧ now - last ≤ recheckInterval) :
    m.get_random_proxy probe now r
      = (some ⟨randChoice m.healthy_proxies r, randChoice m.healthy_proxies r⟩, m) := by
  have hfold : m.unhealthy_proxies.foldl (recheckStep probe now) m = m := by
    apply foldl_eq_self
    intro p hp
    obtain ⟨last, hl, hle⟩ := hrecent p hp
    exact recheckStep_not_due probe now m p last hl hle
  simp only [ProxyManager.get_random_proxy]
  rw [if_neg hne, hfold, if_pos hh]

theorem get_random_proxy_snd (m : ProxyManager) (probe : String → Bool) (now : Int)
    (r : Nat) :
    (m.get_random_proxy probe now r).2 = m
  ∨ (m.get_random_proxy probe now r).2
      = m.unhealthy_proxies.foldl (recheckStep probe now) m := by
  simp only [ProxyManager.get_random_proxy]
  by_cases hne : m.proxies = []
  · rw [if_pos hne]
    exact Or.inl rfl
  · rw [if_neg hne]
    by_cases hh : (m.unhealthy_proxies.foldl (recheckStep probe now) m).healthy_proxies ≠ []
    · rw [if_pos hh]
      exact Or.inr rfl
    · rw [if_neg hh]
      exact Or.inr rfl

theorem get_random_proxy_mem (m : ProxyManager) (probe : String → Bool) (now : Int)
    (r : Nat) (hne : m.proxies ≠ []) :
    ∃ p, (m.get_random_proxy probe now r).1 = some ⟨p, p⟩
      ∧ (p ∈ (m.unhealthy_proxies.foldl (recheckStep probe now) m).healthy_proxies
         ∨ p ∈ m.proxies) := by
  simp only [ProxyManager.get_random_proxy]
  rw [if_neg hne]
  by_cases hh : (m.unhealthy_proxies.foldl (recheckStep probe now) m).healthy_proxies ≠ []
  · rw [if_pos hh]
    exact ⟨_, rfl, Or.inl (randChoice_mem hh r)⟩
  · rw [if_neg hh]
    refine ⟨_, rfl, Or.inr ?_⟩
    rw [foldl_recheck_proxies probe now m.unhealthy_proxies m]
    exact randChoice_mem hne r

theorem mem_checkAll (probe : String → Bool) (now : Int) :
    ∀ (l : List String) (m : ProxyManager) (p : String),
    (p ∈ (l.foldl (checkAllStep probe now) m).healthy_proxies
       ↔ p ∈ m.healthy_proxies ∨ (p ∈ l ∧ probe p = true))
  ∧ (p ∈ (l.foldl (checkAllStep probe now) m).unhealthy_proxies
       ↔ p ∈ m.unhealthy_proxies ∨ (p ∈ l ∧ probe p = false))
  | [], m, p => by simp
  | q :: l, m, p => by
    have ih := mem_checkAll probe now l (checkAllStep probe now m q) p
    rw [List.foldl_cons] at *
    rw [ih.1, ih.2]
    unfold checkAllStep
    by_cases hq : probe q
    · by_cases hpq : p = q
      · subst hpq
        simp [hq, mem_setAdd]
      · simp only [if_pos hq, mem_setAdd, List.mem_cons]
        constructor
        · constructor
          · rintro ((h | h) | h)
            · exact Or.inl h
            · exact absurd h hpq
            · exact Or.inr ⟨Or.inr h.1, h.2⟩
          · rintro (h | ⟨(h | h), hp⟩)
            · exact Or.inl (Or.inl h)
            · exact absurd h hpq
            · exact Or.inr ⟨h, hp⟩
        · constructor
          · rintro (h | h)
            · exact Or.inl h
            · exact Or.inr ⟨Or.inr h.1, h.2⟩
          · rintro (h | ⟨(h | h), hp⟩)
            · exact Or.inl h
            · rw [h] at hp
              rw [hq] at hp
              cases hp
            · exact Or.inr ⟨h, hp⟩
    · by_cases hpq : p = q
      · subst hpq
        simp [hq, mem_setAdd, Bool.not_eq_true] at *
      · simp only [if_neg hq, mem_setAdd, List.mem_cons]
        constructor
        · constructor
          · rintro (h | h)
            · exact Or.inl h
            · exact Or.inr ⟨Or.inr h.1, h.2⟩
          · rintro (h | ⟨(h | h), hp⟩)
            · exact Or.inl h
            · exact absurd h hpq
            · exact Or.inr ⟨h, hp⟩
        · constructor
          · rintro ((h | h) | h)
            · exact Or.inl h
            · exact absurd h hpq
            · exact Or.inr ⟨Or.inr h.1, h.2⟩
          · rintro (h | ⟨(h | h), hp⟩)
            · exact Or.inl (Or.inl h)
            · exact absurd h hpq
            · exact Or.inr ⟨h, hp⟩

/-- C5: whenever the pool is non-empty, at least one proxy is healthy, and
every unhealthy proxy was checked within the 30-minute recheck interval,
`get_random_proxy` returns a proxy drawn from the healthy set and leaves the
manager unchanged; in particular, any number of successive calls on a pool
whose healthy set is exactly `[h]` all return `h`. -/
theorem c5_healthy_only_selection :
    (∀ (m : ProxyManager) (probe : String → Bool) (now : Int) (r : Nat),
       m.proxies ≠ [] → m.healthy_proxies ≠ [] →
       (∀ p ∈ m.unhealthy_proxies, ∃ last, odGet m.proxy_health_checks p = some last
          ∧ now - last ≤ recheckInterval) →
       ∃ q ∈ m.healthy_proxies, m.get_random_proxy probe now r = (some ⟨q, q⟩, m))
  ∧ (∀ (m : ProxyManager) (probe : String → Bool) (now : Int) (h : String)
       (rs : List Nat),
       m.proxies ≠ [] → m.healthy_proxies = [h] →
       (∀ p ∈ m.unhealthy_proxies, ∃ last, odGet m.proxy_health_checks p = some last
          ∧ now - last ≤ recheckInterval) →
       (callProxySeq probe now m rs).1 = rs.map (fun _ => some ⟨h, h⟩)
       ∧ (callProxySeq probe now m rs).2 = m) := by
  constructor
  · intro m probe now r hne hh hrecent
    exact ⟨randChoice m.healthy_proxies r, randChoice_mem hh r,
      get_random_proxy_all_recent m probe now r hne hh hrecent⟩
  · intro m probe now h rs hne hh hrecent
    induction rs with
    | nil => exact ⟨rfl, rfl⟩
    | cons r rs ih =>
      have hstep := get_random_proxy_all_recent m probe now r hne
        (by rw [hh]; simp) hrecent
      rw [hh] at hstep
      have hrc : randChoice [h] r = h := by
        simp [randChoice, Nat.mod_one]
      rw [hrc] at hstep
      constructor
      · show (m.get_random_proxy probe now r).1
            :: (callProxySeq probe now (m.get_random_proxy probe now r).2 rs).1
          = (r :: rs).map (fun _ => some ⟨h, h⟩)
        rw [hstep]
        simp only [List.map_cons]
        exact congrArg _ ih.1
      · show (callProxySeq probe now (m.get_random_proxy probe now r).2 rs).2 = m
        rw [hstep]
        exact ih.2

/-- Witness for C5 at a concrete input: pool `["hp", "up"]` with healthy set
`["hp"]` and unhealthy `"up"` last checked 100 seconds ago — three
successive calls all return `hp`. -/
theorem c5_healthy_only_selection_witness :
    (callProxySeq (fun _ => false) 100
        ⟨["hp", "up"], ["hp"], ["up"], [("up", 0)], true, true, []⟩ [0, 1, 2]).1
      = [some ⟨"hp", "hp"⟩, some ⟨"hp", "hp"⟩, some ⟨"hp", "hp"⟩] := by
  have h := c5_healthy_only_selection.2
    ⟨["hp", "up"], ["hp"], ["up"], [("up", 0)], true, true, []⟩
    (fun _ => false) 100 "hp" [0, 1, 2] (by simp) rfl ?_
  · rw [h.1]
    rfl
  · intro p hp
    simp only [List.mem_singleton] at hp
    subst hp
    exact ⟨0, rfl, by decide⟩

/-- C6: `get_request_metadata` never fails — on an empty pool it returns the
non-empty fixed header set with no egress path; on a non-empty pool with no
healthy identity (the unhealthy set drawn from the pool) it returns the
header set together with some egress path from the full pool. -/
theorem c6_next_never_fails (m : ProxyManager) (probe : String → Bool) (now : Int)
    (uaR : String) (rUA rP : Nat) :
    (m.proxies = [] →
       (m.get_request_metadata probe now uaR rUA rP).1.proxies = Option.none
       ∧ (m.get_request_metadata probe now uaR rUA rP).1.headers ≠ [])
  ∧ (m.proxies ≠ [] → m.healthy_proxies = [] →
       (∀ p ∈ m.unhealthy_proxies, p ∈ m.proxies) →
       (∃ p ∈ m.proxies,
          (m.get_request_metadata probe now uaR rUA rP).1.proxies = some ⟨p, p⟩)
       ∧ (m.get_request_metadata probe now uaR rUA rP).1.headers ≠ []) := by
  have hmeta1 : (m.get_request_metadata probe now uaR rUA rP).1.proxies
      = (m.get_random_proxy probe now rP).1 := rfl
  have hheaders : (m.get_request_metadata probe now uaR rUA rP).1.headers
      = baseHeaders (m.get_random_user_agent uaR rUA) := rfl
  constructor
  · intro hemp
    refine ⟨?_, ?_⟩
    · rw [hmeta1]
      simp only [ProxyManager.get_random_proxy]
      rw [if_pos hemp]
    · rw [hheaders]
      simp [baseHeaders]
  · intro hne hh0 hsub
    refine ⟨?_, by rw [hheaders]; simp [baseHeaders]⟩
    obtain ⟨p, hp1, hp2⟩ := get_random_proxy_mem m probe now rP hne
    refine ⟨p, ?_, by rw [hmeta1]; exact hp1⟩
    rcases hp2 with h | h
    · rcases foldl_recheck_healthy_origin probe now m.unhealthy_proxies m p h with h2 | h2
      · rw [hh0] at h2
        cases h2
      · exact hsub p h2
    · exact h

/-- Witness for C6 at concrete inputs: an empty pool yields no egress path
but non-empty headers; a pool of one never-healthy proxy still yields an
egress path from the pool. -/
theorem c6_next_never_fails_witness :
    ((⟨[], [], [], [], true, true, []⟩ : ProxyManager).get_request_metadata
        (fun _ => false) 0 "ua" 0 0).1.proxies = Option.none
  ∧ (∃ p ∈ (["http://p1:8080"] : List String),
       ((⟨["http://p1:8080"], [], ["http://p1:8080"], [], true, true, []⟩ :
           ProxyManager).get_request_metadata (fun _ => false) 0 "ua" 0 0).1.proxies
         = some ⟨p, p⟩) :=
  ⟨((c6_next_never_fails ⟨[], [], [], [], true, true, []⟩ (fun _ => false) 0 "ua" 0 0).1
      rfl).1,
   ((c6_next_never_fails ⟨["http://p1:8080"], [], ["http://p1:8080"], [], true, true, []⟩
      (fun _ => false) 0 "ua" 0 0).2 (by simp) rfl (fun p hp => hp)).1⟩

/-- C8 (counterexample): with health checking disabled at construction, a
configured identity is in neither of the two health sets — both are empty —
refuting "each identity is in exactly one of the sets … including when
health checking is disabled". -/
theorem c8_counterexample_disabled_checking :
    ¬ ExactlyOne (ProxyManager.init ["http://p1:8080"] Option.none false true
        (fun _ => false) 0) "http://p1:8080"
  ∧ "http://p1:8080" ∈ (ProxyManager.init ["http://p1:8080"] Option.none false true
        (fun _ => false) 0).proxies := by
  constructor
  · intro h
    rcases h with ⟨h1, _⟩ | ⟨_, h2⟩
    · simp [ProxyManager.init] at h1
    · simp [ProxyManager.init] at h2
  · simp [ProxyManager.init]

/-- C8 (amended): when health checking is enabled at construction, every
configured identity ends up in exactly one of the two health sets (a failed
or never-run probe leaves it Unhealthy), and `get_random_proxy` preserves
this exactly-one invariant; when health checking is disabled, identities are
in neither set (they stay eligible for selection but carry no health state). -/
theorem c8_amended_health_partition :
    (∀ (proxies : List String) (uas : Option (List String)) (ufa : Bool)
       (probe : String → Bool) (now : Int) (p : String), p ∈ proxies →
       ExactlyOne (ProxyManager.init proxies uas true ufa probe now) p
       ∧ (probe p = false →
            p ∈ (ProxyManager.init proxies uas true ufa probe now).unhealthy_proxies))
  ∧ (∀ (m : ProxyManager) (probe : String → Bool) (now : Int) (r : Nat) (p : String),
       ExactlyOne m p → ExactlyOne ((m.get_random_proxy probe now r).2) p)
  ∧ (∀ (proxies : List String) (uas : Option (List String)) (ufa : Bool)
       (probe : String → Bool) (now : Int),
       (ProxyManager.init proxies uas false ufa probe now).healthy_proxies = []
       ∧ (ProxyManager.init proxies uas false ufa probe now).unhealthy_proxies = []) := by
  refine ⟨?_, ?_, ?_⟩
  · intro proxies uas ufa probe now p hp
    have hne : proxies ≠ [] := List.ne_nil_of_mem hp
    unfold ProxyManager.init
    rw [if_pos ⟨hne, rfl⟩]
    unfold ProxyManager.check_all_proxies
    have hchar := mem_checkAll probe now proxies
      { proxies := proxies, healthy_proxies := [], unhealthy_proxies := [],
        proxy_health_checks := [], check_proxy_health := true, use_fake_ua := ufa,
        user_agents := uas.getD defaultUserAgents } p
    constructor
    · unfold ExactlyOne
      rw [hchar.1, hchar.2]
      by_cases hq : probe p
      · left
        simp [hp, hq]
      · right
        simp [hp, hq, Bool.not_eq_true (probe p) |>.mpr]
    · intro hq
      rw [hchar.2]
      exact Or.inr ⟨hp, hq⟩
  · intro m probe now r p h
    rcases get_random_proxy_snd m probe now r with hs | hs
    · rw [hs]
      exact h
    · rw [hs]
      exact foldl_recheck_exactlyOne probe now m.unhealthy_proxies m p h
  · intro proxies uas ufa probe now
    constructor <;> simp [ProxyManager.init]

/-- Witness for C8's amended claim at a concrete input: one configured proxy
whose probe fails is Unhealthy (and in exactly one set) after construction
with checking enabled, and remains in exactly one set after a
`get_random_proxy` call. -/
theorem c8_amended_health_partition_witness :
    ExactlyOne (ProxyManager.init ["p1"] Option.none true true (fun _ => false) 0) "p1"
  ∧ "p1" ∈ (ProxyManager.init ["p1"] Option.none true true
      (fun _ => false) 0).unhealthy_proxies
  ∧ ExactlyOne ((ProxyManager.init ["p1"] Option.none true true
      (fun _ => false) 0).get_random_proxy (fun _ => false) 0 0).2 "p1" :=
  ⟨(c8_amended_health_partition.1 ["p1"] Option.none true (fun _ => false) 0 "p1"
      (by simp)).1,
   (c8_amended_health_partition.1 ["p1"] Option.none true (fun _ => false) 0 "p1"
      (by simp)).2 rfl,
   c8_amended_health_partition.2.1
     (ProxyManager.init ["p1"] Option.none true true (fun _ => false) 0)
     (fun _ => false) 0 0 "p1"
     (c8_amended_health_partition.1 ["p1"] Option.none true (fun _ => false) 0 "p1"
        (by simp)).1⟩

end Groxy
